import Mathlib

/-!
Shallow embedding of the binary-heap library (`src/heap.rs`,
`src/heap/maxheap.rs`, `src/heap/minheap.rs`).

The Rust `Vec<T>` backing store is modelled as a `List α`; machine indices
are `Nat` (a `Vec` length always fits in `usize`, and no arithmetic in the
sources can overflow `usize`).  The element type is an arbitrary type `α`
together with a comparison function `cmp : α → α → Ordering`, mirroring the
`T: Ord + Clone` bound (Rust `Ord` values are handed out by `clone`, so
elements are plain values here; `a >= b` is `cmp a b ≠ .lt`, `a < b` is
`cmp a b = .lt`).

The `loop { ... }` constructs of `shift_down` / `shift_up` / `heapify` are
modelled by structural recursion on a fuel parameter; each wrapper passes
`l.length` fuel, and the `fuel`-irrelevance lemmas below show this bound is
large enough, i.e. the fuelled function agrees with the unbounded loop.
-/

namespace HeapModel

/-- `HeapType` from heap.rs. -/
inductive HeapType where
  | maxHeapT : HeapType
  | minHeapT : HeapType
deriving DecidableEq

/-- `Vec::swap(i, j)`: exchange the elements at positions `i` and `j`.
(The Rust call panics when an index is out of bounds; the checked model
`swapIdxC` below captures that, this total version returns the list
unchanged in that case.) -/
def swapIdx {α : Type} (l : List α) (i j : Nat) : List α :=
  match l[i]?, l[j]? with
  | some a, some b => (l.set i b).set j a
  | _, _ => l

/-- Parent index as computed by `Heap::shift_up`:
`if i.is_multiple_of(2) { (i - 2) / 2 } else { (i - 1) / 2 }`. -/
def parentIdx (i : Nat) : Nat :=
  if i % 2 = 0 then (i - 2) / 2 else (i - 1) / 2

/-- Child selection of `Heap::shift_down` (heap.rs lines 52-74): with both
children present, compare `item[right]` against `item[left]`; on
`Less | Equal` the max-heap takes the left child and the min-heap the right
child, on `Greater` the other way around; with only a left child take it. -/
def chosenChild {α : Type} [Inhabited α] (ht : HeapType) (cmp : α → α → Ordering)
    (l : List α) (cur : Nat) : Nat :=
  if 2 * cur + 2 < l.length then
    match cmp (l.getD (2 * cur + 2) default) (l.getD (2 * cur + 1) default) with
    | .lt => (match ht with | .maxHeapT => 2 * cur + 1 | .minHeapT => 2 * cur + 2)
    | .eq => (match ht with | .maxHeapT => 2 * cur + 1 | .minHeapT => 2 * cur + 2)
    | .gt => (match ht with | .maxHeapT => 2 * cur + 2 | .minHeapT => 2 * cur + 1)
  else 2 * cur + 1

/-- The `break` test of `Heap::shift_down` (heap.rs lines 78-94) applied to
`cmp item[max_child] item[current]`: the max-heap stops on
`Less | Equal`, the min-heap stops on `Greater`. -/
def siftStop (ht : HeapType) (o : Ordering) : Bool :=
  match ht, o with
  | .maxHeapT, .lt => true
  | .maxHeapT, .eq => true
  | .maxHeapT, .gt => false
  | .minHeapT, .lt => false
  | .minHeapT, .eq => false
  | .minHeapT, .gt => true

/-- The body of the `loop` in `Heap::shift_down`, with fuel. -/
def shiftDownGo {α : Type} [Inhabited α] (ht : HeapType) (cmp : α → α → Ordering) :
    Nat → List α → Nat → List α
  | 0, l, _ => l
  | fuel + 1, l, cur =>
    if l.length ≤ 2 * cur + 1 then l
    else
      let mc := chosenChild ht cmp l cur
      if siftStop ht (cmp (l.getD mc default) (l.getD cur default)) then l
      else shiftDownGo ht cmp fuel (swapIdx l cur mc) mc

/-- `Heap::shift_down` (heap.rs lines 47-95): sift the root (index 0) down. -/
def shiftDown {α : Type} [Inhabited α] (ht : HeapType) (cmp : α → α → Ordering)
    (l : List α) : List α :=
  shiftDownGo ht cmp l.length l 0

/-- The `break` test of `Heap::shift_up` (heap.rs lines 104-115) applied to
`cmp item[p] current`: the max-heap stops when `item[p] >= current`
(comparison not `Less`), the min-heap stops when `item[p] < current`. -/
def siftUpStop (ht : HeapType) (o : Ordering) : Bool :=
  match ht, o with
  | .maxHeapT, .lt => false
  | .maxHeapT, .eq => true
  | .maxHeapT, .gt => true
  | .minHeapT, .lt => true
  | .minHeapT, .eq => false
  | .minHeapT, .gt => false

/-- The body of the `while i > 0` loop in `Heap::shift_up`, with fuel. -/
def shiftUpGo {α : Type} [Inhabited α] (ht : HeapType) (cmp : α → α → Ordering) :
    Nat → List α → Nat → List α
  | 0, l, _ => l
  | fuel + 1, l, i =>
    if i = 0 then l
    else
      let p := parentIdx i
      if siftUpStop ht (cmp (l.getD p default) (l.getD i default)) then l
      else shiftUpGo ht cmp fuel (swapIdx l p i) p

/-- `Heap::shift_up` (heap.rs lines 97-120): start at `self.len() - 1`. -/
def shiftUp {α : Type} [Inhabited α] (ht : HeapType) (cmp : α → α → Ordering)
    (l : List α) : List α :=
  shiftUpGo ht cmp l.length l (l.length - 1)

/-- `Heap::push` (heap.rs lines 123-132): append, then sift up unless the
heap was empty. -/
def heapPush {α : Type} [Inhabited α] (ht : HeapType) (cmp : α → α → Ordering)
    (l : List α) (x : α) : List α :=
  if l.length < 1 then l ++ [x]
  else shiftUp ht cmp (l ++ [x])

/-- `Heap::pop` (heap.rs lines 135-149): `None` on empty, `Vec::pop` on a
singleton, otherwise clone the root, swap it with the last slot, shrink by
one and sift the new root down. -/
def heapPop {α : Type} [Inhabited α] (ht : HeapType) (cmp : α → α → Ordering)
    (l : List α) : Option α × List α :=
  match l.length with
  | 0 => (none, l)
  | 1 => (l.getLast?, l.dropLast)
  | _ + 2 =>
    (some (l.getD 0 default),
      shiftDown ht cmp ((swapIdx l 0 (l.length - 1)).dropLast))

/-- `Heap::peek` (heap.rs lines 152-154): `self.item().first().cloned()`. -/
def heapPeek {α : Type} (l : List α) : Option α :=
  l.head?

/-- `Heap::len` (heap.rs lines 156-158). -/
def heapLen {α : Type} (l : List α) : Nat :=
  l.length

/-- `Heap::is_empty` (heap.rs lines 161-163): `self.len() == 0`. -/
def heapIsEmpty {α : Type} (l : List α) : Bool :=
  heapLen l == 0

/-- `Heap::clear` (heap.rs lines 166-168): `self.item_mutable().clear()`. -/
def heapClearF {α : Type} (_ : List α) : List α :=
  []

/-- `MaxHeap::new` / `MinHeap::new`: an empty backing vector. -/
def heapNew {α : Type} : List α :=
  []

/-- `Heap::from_vec` default body (heap.rs lines 171-180): push every
element of the slice, in order, into a fresh heap. -/
def heapFromVec {α : Type} [Inhabited α] (ht : HeapType) (cmp : α → α → Ordering)
    (vec : List α) : List α :=
  vec.foldl (fun acc x => heapPush ht cmp acc x) heapNew

/-- `MaxHeap::from_vec` (maxheap.rs lines 25-35): starts from the given
vector and runs `for i in (0..init.item.len()).rev() { init.shift_down() }`;
the loop variable `i` is unused and `shift_down` always starts at the root. -/
def maxFromVec {α : Type} [Inhabited α] (cmp : α → α → Ordering)
    (vec : List α) : List α :=
  (List.range vec.length).reverse.foldl
    (fun acc _ => shiftDown .maxHeapT cmp acc) vec

/-- `levels_from_len` (heap.rs lines 204-206): `n.ilog2() + 1` for `n ≠ 0`. -/
def levelsFromLen (n : Nat) : Nat :=
  if n = 0 then 0 else Nat.log2 n + 1

/-- The sequence of array indices read by `Heap::tree_view` /
`MinHeap::tree_view` on a heap of length `len`: for each level
`i in 0..levels_from_len(len)` the inclusive range
`(1 << i) - 1 ..= ((1 << (i+1)) - 2).min(len.saturating_sub(1))`. -/
def treeViewIndices (len : Nat) : List Nat :=
  (List.range (levelsFromLen len)).foldr
    (fun i acc =>
      (List.range (min (2 ^ (i + 1) - 2) (len - 1) + 1 - (2 ^ i - 1))).map
        (fun k => (2 ^ i - 1) + k) ++ acc)
    []

/-- Child selection of `MinHeap::heapify` (minheap.rs lines 35-44):
`Less | Equal → right_child_index`, `Greater → left_child_index`, and the
left child when the right one does not exist. -/
def minChosenChild {α : Type} [Inhabited α] (cmp : α → α → Ordering)
    (l : List α) (cur : Nat) : Nat :=
  if 2 * cur + 2 < l.length then
    match cmp (l.getD (2 * cur + 2) default) (l.getD (2 * cur + 1) default) with
    | .lt => 2 * cur + 2
    | .eq => 2 * cur + 2
    | .gt => 2 * cur + 1
  else 2 * cur + 1

/-- The body of the `loop` in `MinHeap::heapify` (minheap.rs lines 25-54),
with fuel: on `Less | Equal` swap with the chosen child and continue from
it, on `Greater` stop. -/
def minHeapifyGo {α : Type} [Inhabited α] (cmp : α → α → Ordering) :
    Nat → List α → Nat → List α
  | 0, l, _ => l
  | fuel + 1, l, cur =>
    if l.length ≤ 2 * cur + 1 then l
    else
      let mc := minChosenChild cmp l cur
      match cmp (l.getD mc default) (l.getD cur default) with
      | .gt => l
      | _ => minHeapifyGo cmp fuel (swapIdx l cur mc) mc

/-- `MinHeap::heapify(root)` (minheap.rs lines 25-54). -/
def minHeapify {α : Type} [Inhabited α] (cmp : α → α → Ordering)
    (l : List α) (root : Nat) : List α :=
  minHeapifyGo cmp l.length l root

/-- `MinHeap::push` (minheap.rs lines 72-83): when `len <= 1` just append;
otherwise append and then run `heapify(i)` for `i in (0..len).rev()` where
`len` is the length **before** the append. -/
def minPush {α : Type} [Inhabited α] (cmp : α → α → Ordering)
    (l : List α) (x : α) : List α :=
  if l.length ≤ 1 then l ++ [x]
  else
    (List.range l.length).reverse.foldl
      (fun acc i => minHeapify cmp acc i) (l ++ [x])

/-- `MinHeap::pop` (minheap.rs lines 94-107). -/
def minPop {α : Type} [Inhabited α] (cmp : α → α → Ordering)
    (l : List α) : Option α × List α :=
  match l.length with
  | 0 => (none, l)
  | 1 => (l.getLast?, l.dropLast)
  | _ + 2 =>
    (some (l.getD 0 default),
      minHeapify cmp ((swapIdx l 0 (l.length - 1)).dropLast) 0)

/-- `MinHeap::peek` (minheap.rs lines 109-111). -/
def minPeek {α : Type} (l : List α) : Option α :=
  l.head?

/-- `MinHeap::len` (minheap.rs lines 113-115). -/
def minLen {α : Type} (l : List α) : Nat :=
  l.length

/-- `MinHeap::clear` (minheap.rs lines 117-119). -/
def minClearF {α : Type} (_ : List α) : List α :=
  []

/-- `MinHeap::from_vec` (minheap.rs lines 121-131): adopt the vector and run
`heapify(i)` for `i in (0..len).rev()` (a bottom-up heapify). -/
def minFromVec {α : Type} [Inhabited α] (cmp : α → α → Ordering)
    (vec : List α) : List α :=
  (List.range vec.length).reverse.foldl
    (fun acc i => minHeapify cmp acc i) vec

/-- Popping a trait-`Heap` until it is empty, collecting the results
(the drain loop of the repository's own tests). -/
def heapDrainGo {α : Type} [Inhabited α] (ht : HeapType) (cmp : α → α → Ordering) :
    Nat → List α → List α
  | 0, _ => []
  | fuel + 1, l =>
    match heapPop ht cmp l with
    | (none, _) => []
    | (some v, l2) => v :: heapDrainGo ht cmp fuel l2

/-- Drain a trait-`Heap` (e.g. a `MaxHeap`) by repeated `pop`. -/
def heapDrain {α : Type} [Inhabited α] (ht : HeapType) (cmp : α → α → Ordering)
    (l : List α) : List α :=
  heapDrainGo ht cmp l.length l

/-- Popping a `MinHeap` until it is empty, collecting the results. -/
def minDrainGo {α : Type} [Inhabited α] (cmp : α → α → Ordering) :
    Nat → List α → List α
  | 0, _ => []
  | fuel + 1, l =>
    match minPop cmp l with
    | (none, _) => []
    | (some v, l2) => v :: minDrainGo cmp fuel l2

/-- Drain a `MinHeap` by repeated `pop`. -/
def minDrain {α : Type} [Inhabited α] (cmp : α → α → Ordering)
    (l : List α) : List α :=
  minDrainGo cmp l.length l

/-- Parent-dominance required of position `i` over child `c` (spec section 3):
for the max-heap `elements[i] >= elements[c]`, for the min-heap
`elements[i] <= elements[c]`. -/
def dominates (ht : HeapType) (o : Ordering) : Bool :=
  match ht, o with
  | .maxHeapT, .lt => false
  | .maxHeapT, _ => true
  | .minHeapT, .gt => false
  | .minHeapT, _ => true

/-- The heap invariant on the backing array: every parent dominates each of
its existing children. -/
def isHeapArr {α : Type} [Inhabited α] (ht : HeapType) (cmp : α → α → Ordering)
    (l : List α) : Prop :=
  ∀ i < l.length, ∀ c < l.length,
    (c = 2 * i + 1 ∨ c = 2 * i + 2) →
      dominates ht (cmp (l.getD i default) (l.getD c default)) = true

instance {α : Type} [Inhabited α] (ht : HeapType) (cmp : α → α → Ordering)
    (l : List α) : Decidable (isHeapArr ht cmp l) := by
  unfold isHeapArr
  infer_instance

/-! ### Basic lemmas: swapping two list positions is a permutation -/

theorem cons_set_perm {α : Type} :
    ∀ (t : List α) (j : Nat) (b c : α), t[j]? = some b →
      List.Perm (b :: t.set j c) (c :: t)
  | d :: s, 0, b, c, h => by
    have hdb : d = b := by simpa using h
    subst hdb
    simpa using List.Perm.swap c d s
  | d :: s, j + 1, b, c, h => by
    simp only [List.getElem?_cons_succ] at h
    refine List.Perm.trans ?_ (List.Perm.swap c d s)
    refine List.Perm.trans ?_ ((cons_set_perm s j b c h).cons d)
    show List.Perm (b :: (d :: s).set (j + 1) c) (d :: b :: s.set j c)
    have hset : (d :: s).set (j + 1) c = d :: s.set j c := rfl
    rw [hset]
    exact List.Perm.swap d b _

theorem set_set_swap_perm {α : Type} :
    ∀ (l : List α) (i j : Nat) (a b : α), l[i]? = some a → l[j]? = some b →
      List.Perm ((l.set i b).set j a) l
  | c :: t, 0, 0, a, b, h1, h2 => by
    have h1' : c = a := by simpa using h1
    have h2' : c = b := by simpa using h2
    subst h1'; subst h2'
    simp
  | c :: t, 0, j + 1, a, b, h1, h2 => by
    have h1' : c = a := by simpa using h1
    have h2' : t[j]? = some b := by simpa using h2
    subst h1'
    simpa using cons_set_perm t j b c h2'
  | c :: t, i + 1, 0, a, b, h1, h2 => by
    have h1' : t[i]? = some a := by simpa using h1
    have h2' : c = b := by simpa using h2
    subst h2'
    simpa using cons_set_perm t i a c h1'
  | c :: t, i + 1, j + 1, a, b, h1, h2 => by
    simp only [List.getElem?_cons_succ] at h1 h2
    simpa using List.Perm.cons c (set_set_swap_perm t i j a b h1 h2)

theorem swapIdx_perm {α : Type} (l : List α) (i j : Nat) :
    List.Perm (swapIdx l i j) l := by
  unfold swapIdx
  split
  next a b h1 h2 => exact set_set_swap_perm l i j a b h1 h2
  next => exact List.Perm.refl l

theorem swapIdx_length {α : Type} (l : List α) (i j : Nat) :
    (swapIdx l i j).length = l.length :=
  (swapIdx_perm l i j).length_eq

/-! ### The chosen child is a child, and in bounds when one exists -/

theorem chosenChild_cases {α : Type} [Inhabited α] (ht : HeapType)
    (cmp : α → α → Ordering) (l : List α) (cur : Nat) :
    chosenChild ht cmp l cur = 2 * cur + 1 ∨
      chosenChild ht cmp l cur = 2 * cur + 2 := by
  unfold chosenChild
  split
  · split <;> cases ht <;> simp
  · left; rfl

theorem chosenChild_gt {α : Type} [Inhabited α] (ht : HeapType)
    (cmp : α → α → Ordering) (l : List α) (cur : Nat) :
    cur < chosenChild ht cmp l cur := by
  rcases chosenChild_cases ht cmp l cur with h | h <;> omega

theorem chosenChild_lt_len {α : Type} [Inhabited α] (ht : HeapType)
    (cmp : α → α → Ordering) (l : List α) (cur : Nat)
    (h : 2 * cur + 1 < l.length) :
    chosenChild ht cmp l cur < l.length := by
  unfold chosenChild
  split
  · split <;> cases ht <;> simp <;> omega
  · exact h

theorem minChosenChild_cases {α : Type} [Inhabited α]
    (cmp : α → α → Ordering) (l : List α) (cur : Nat) :
    minChosenChild cmp l cur = 2 * cur + 1 ∨
      minChosenChild cmp l cur = 2 * cur + 2 := by
  unfold minChosenChild
  split
  · split <;> simp
  · left; rfl

theorem minChosenChild_gt {α : Type} [Inhabited α]
    (cmp : α → α → Ordering) (l : List α) (cur : Nat) :
    cur < minChosenChild cmp l cur := by
  rcases minChosenChild_cases cmp l cur with h | h <;> omega

theorem minChosenChild_lt_len {α : Type} [Inhabited α]
    (cmp : α → α → Ordering) (l : List α) (cur : Nat)
    (h : 2 * cur + 1 < l.length) :
    minChosenChild cmp l cur < l.length := by
  unfold minChosenChild
  split
  · split <;> omega
  · exact h

/-! ### Fuel irrelevance: `l.length` fuel is enough for every sift loop -/

theorem shiftDownGo_fuel {α : Type} [Inhabited α] (ht : HeapType)
    (cmp : α → α → Ordering) :
    ∀ (f1 f2 : Nat) (l : List α) (cur : Nat),
      l.length ≤ cur + f1 → l.length ≤ cur + f2 →
      shiftDownGo ht cmp f1 l cur = shiftDownGo ht cmp f2 l cur := by
  intro f1
  induction f1 with
  | zero =>
    intro f2 l cur h1 _
    cases f2 with
    | zero => rfl
    | succ f2 =>
      simp only [shiftDownGo]
      rw [if_pos (by omega)]
  | succ f1 ih =>
    intro f2 l cur h1 h2
    cases f2 with
    | zero =>
      simp only [shiftDownGo]
      rw [if_pos (by omega)]
    | succ f2 =>
      simp only [shiftDownGo]
      by_cases hg : l.length ≤ 2 * cur + 1
      · rw [if_pos hg, if_pos hg]
      · rw [if_neg hg, if_neg hg]
        by_cases hs : siftStop ht
            (cmp (l.getD (chosenChild ht cmp l cur) default) (l.getD cur default)) = true
        · rw [if_pos hs, if_pos hs]
        · rw [if_neg hs, if_neg hs]
          have hgt := chosenChild_gt ht cmp l cur
          have hlen := swapIdx_length l cur (chosenChild ht cmp l cur)
          exact ih f2 _ _ (by omega) (by omega)

theorem shiftUpGo_fuel {α : Type} [Inhabited α] (ht : HeapType)
    (cmp : α → α → Ordering) :
    ∀ (f1 f2 : Nat) (l : List α) (i : Nat),
      i < f1 → i < f2 →
      shiftUpGo ht cmp f1 l i = shiftUpGo ht cmp f2 l i := by
  intro f1
  induction f1 with
  | zero => intro f2 l i h1 _; omega
  | succ f1 ih =>
    intro f2 l i h1 h2
    cases f2 with
    | zero => omega
    | succ f2 =>
      simp only [shiftUpGo]
      by_cases hi : i = 0
      · rw [if_pos hi, if_pos hi]
      · rw [if_neg hi, if_neg hi]
        by_cases hs : siftUpStop ht
            (cmp (l.getD (parentIdx i) default) (l.getD i default)) = true
        · rw [if_pos hs, if_pos hs]
        · rw [if_neg hs, if_neg hs]
          have hp : parentIdx i < i := by
            unfold parentIdx
            split <;> omega
          exact ih f2 _ _ (by omega) (by omega)

theorem minHeapifyGo_fuel {α : Type} [Inhabited α] (cmp : α → α → Ordering) :
    ∀ (f1 f2 : Nat) (l : List α) (cur : Nat),
      l.length ≤ cur + f1 → l.length ≤ cur + f2 →
      minHeapifyGo cmp f1 l cur = minHeapifyGo cmp f2 l cur := by
  intro f1
  induction f1 with
  | zero =>
    intro f2 l cur h1 _
    cases f2 with
    | zero => rfl
    | succ f2 =>
      simp only [minHeapifyGo]
      rw [if_pos (by omega)]
  | succ f1 ih =>
    intro f2 l cur h1 h2
    cases f2 with
    | zero =>
      simp only [minHeapifyGo]
      rw [if_pos (by omega)]
    | succ f2 =>
      simp only [minHeapifyGo]
      by_cases hg : l.length ≤ 2 * cur + 1
      · rw [if_pos hg, if_pos hg]
      · rw [if_neg hg, if_neg hg]
        have hgt := minChosenChild_gt cmp l cur
        have hlen := swapIdx_length l cur (minChosenChild cmp l cur)
        cases cmp (l.getD (minChosenChild cmp l cur) default) (l.getD cur default) <;>
          simp only [] <;>
          first
          | rfl
          | exact ih f2 _ _ (by omega) (by omega)

/-! ### The sift loops permute the backing array -/

theorem shiftDownGo_perm {α : Type} [Inhabited α] (ht : HeapType)
    (cmp : α → α → Ordering) :
    ∀ (fuel : Nat) (l : List α) (cur : Nat),
      List.Perm (shiftDownGo ht cmp fuel l cur) l := by
  intro fuel
  induction fuel with
  | zero => intro l cur; exact List.Perm.refl l
  | succ fuel ih =>
    intro l cur
    simp only [shiftDownGo]
    by_cases hg : l.length ≤ 2 * cur + 1
    · rw [if_pos hg]
    · rw [if_neg hg]
      by_cases hs : siftStop ht
          (cmp (l.getD (chosenChild ht cmp l cur) default) (l.getD cur default)) = true
      · rw [if_pos hs]
      · rw [if_neg hs]
        exact (ih _ _).trans (swapIdx_perm l cur _)

theorem shiftUpGo_perm {α : Type} [Inhabited α] (ht : HeapType)
    (cmp : α → α → Ordering) :
    ∀ (fuel : Nat) (l : List α) (i : Nat),
      List.Perm (shiftUpGo ht cmp fuel l i) l := by
  intro fuel
  induction fuel with
  | zero => intro l i; exact List.Perm.refl l
  | succ fuel ih =>
    intro l i
    simp only [shiftUpGo]
    by_cases hi : i = 0
    · rw [if_pos hi]
    · rw [if_neg hi]
      by_cases hs : siftUpStop ht
          (cmp (l.getD (parentIdx i) default) (l.getD i default)) = true
      · rw [if_pos hs]
      · rw [if_neg hs]
        exact (ih _ _).trans (swapIdx_perm l _ i)

theorem minHeapifyGo_perm {α : Type} [Inhabited α] (cmp : α → α → Ordering) :
    ∀ (fuel : Nat) (l : List α) (cur : Nat),
      List.Perm (minHeapifyGo cmp fuel l cur) l := by
  intro fuel
  induction fuel with
  | zero => intro l cur; exact List.Perm.refl l
  | succ fuel ih =>
    intro l cur
    simp only [minHeapifyGo]
    by_cases hg : l.length ≤ 2 * cur + 1
    · rw [if_pos hg]
    · rw [if_neg hg]
      cases cmp (l.getD (minChosenChild cmp l cur) default) (l.getD cur default) <;>
        simp only [] <;>
        first
        | exact List.Perm.refl l
        | exact (ih _ _).trans (swapIdx_perm l cur _)

theorem shiftDown_perm {α : Type} [Inhabited α] (ht : HeapType)
    (cmp : α → α → Ordering) (l : List α) :
    List.Perm (shiftDown ht cmp l) l :=
  shiftDownGo_perm ht cmp l.length l 0

theorem shiftUp_perm {α : Type} [Inhabited α] (ht : HeapType)
    (cmp : α → α → Ordering) (l : List α) :
    List.Perm (shiftUp ht cmp l) l :=
  shiftUpGo_perm ht cmp l.length l (l.length - 1)

theorem minHeapify_perm {α : Type} [Inhabited α] (cmp : α → α → Ordering)
    (l : List α) (root : Nat) :
    List.Perm (minHeapify cmp l root) l :=
  minHeapifyGo_perm cmp l.length l root

/-! ### Operation-level permutation facts -/

theorem heapPush_perm {α : Type} [Inhabited α] (ht : HeapType)
    (cmp : α → α → Ordering) (l : List α) (x : α) :
    List.Perm (heapPush ht cmp l x) (x :: l) := by
  unfold heapPush
  split
  · exact List.perm_append_singleton x l
  · exact (shiftUp_perm ht cmp (l ++ [x])).trans (List.perm_append_singleton x l)

theorem foldl_minHeapify_perm {α : Type} [Inhabited α] (cmp : α → α → Ordering) :
    ∀ (idxs : List Nat) (l : List α),
      List.Perm (idxs.foldl (fun acc i => minHeapify cmp acc i) l) l
  | [], l => List.Perm.refl l
  | i :: is, l =>
    (foldl_minHeapify_perm cmp is (minHeapify cmp l i)).trans
      (minHeapify_perm cmp l i)

theorem minPush_perm {α : Type} [Inhabited α] (cmp : α → α → Ordering)
    (l : List α) (x : α) :
    List.Perm (minPush cmp l x) (x :: l) := by
  unfold minPush
  split
  · exact List.perm_append_singleton x l
  · exact (foldl_minHeapify_perm cmp _ (l ++ [x])).trans
      (List.perm_append_singleton x l)

/-- After `swap(0, len - 1)` followed by `Vec::pop`, the removed slot holds the
old root: the original list is a permutation of the old root consed onto the
shrunk list. -/
theorem pop_swap_decomp {α : Type} [Inhabited α] (l : List α)
    (h : 2 ≤ l.length) :
    List.Perm l
      (l.getD 0 default :: (swapIdx l 0 (l.length - 1)).dropLast) := by
  have h0 : 0 < l.length := by omega
  have hn1 : l.length - 1 < l.length := by omega
  have hga : l[0]? = some (l.getD 0 default) := by
    rw [List.getElem?_eq_getElem h0]
    simp [List.getD_eq_getElem?_getD, List.getElem?_eq_getElem h0]
  have hgb : l[l.length - 1]? = some (l.getD (l.length - 1) default) := by
    rw [List.getElem?_eq_getElem hn1]
    simp [List.getD_eq_getElem?_getD, List.getElem?_eq_getElem hn1]
  have hm : swapIdx l 0 (l.length - 1) =
      (l.set 0 (l.getD (l.length - 1) default)).set (l.length - 1)
        (l.getD 0 default) := by
    unfold swapIdx
    rw [hga, hgb]
  have hlast :
      ((l.set 0 (l.getD (l.length - 1) default)).set (l.length - 1)
        (l.getD 0 default)).getLast? = some (l.getD 0 default) := by
    rw [List.getLast?_eq_getElem?]
    simp only [List.length_set]
    exact List.getElem?_set_self (by simp; omega)
  have hdrop :
      ((l.set 0 (l.getD (l.length - 1) default)).set (l.length - 1)
          (l.getD 0 default)).dropLast ++ [l.getD 0 default] =
        (l.set 0 (l.getD (l.length - 1) default)).set (l.length - 1)
          (l.getD 0 default) :=
    List.dropLast_append_getLast? (l.getD 0 default) hlast
  rw [hm]
  refine ((hm ▸ swapIdx_perm l 0 (l.length - 1)).symm).trans ?_
  conv_lhs => rw [← hdrop]
  exact List.perm_append_singleton _ _

/-- Both `pop` bodies have the shape
`(Some(root), F(popped-and-swapped vector))` for a permutation-preserving
sift `F`; the original list is a permutation of root-cons-result. -/
theorem pop_shape_perm {α : Type} [Inhabited α] (l : List α)
    (F : List α → List α) (hF : ∀ m, List.Perm (F m) m) (h : 2 ≤ l.length) :
    List.Perm l
      (l.getD 0 default :: F ((swapIdx l 0 (l.length - 1)).dropLast)) :=
  (pop_swap_decomp l h).trans (((hF _).symm).cons _)

theorem heapPop_eq_of_len_two {α : Type} [Inhabited α] (ht : HeapType)
    (cmp : α → α → Ordering) (l : List α) (n : Nat) (hn : l.length = n + 2) :
    heapPop ht cmp l =
      (some (l.getD 0 default),
        shiftDown ht cmp ((swapIdx l 0 (l.length - 1)).dropLast)) := by
  unfold heapPop
  rw [hn]

theorem minPop_eq_of_len_two {α : Type} [Inhabited α]
    (cmp : α → α → Ordering) (l : List α) (n : Nat) (hn : l.length = n + 2) :
    minPop cmp l =
      (some (l.getD 0 default),
        minHeapify cmp ((swapIdx l 0 (l.length - 1)).dropLast) 0) := by
  unfold minPop
  rw [hn]

theorem heapPop_perm_decomp {α : Type} [Inhabited α] (ht : HeapType)
    (cmp : α → α → Ordering) (l : List α) (h : l ≠ []) :
    ∃ v l2, heapPop ht cmp l = (some v, l2) ∧ List.Perm l (v :: l2) := by
  match hn : l.length with
  | 0 => exact absurd (List.length_eq_zero.mp hn) h
  | 1 =>
    obtain ⟨a, rfl⟩ := List.length_eq_one.mp hn
    exact ⟨a, [], rfl, List.Perm.refl _⟩
  | n + 2 =>
    refine ⟨_, _, heapPop_eq_of_len_two ht cmp l n hn, ?_⟩
    exact pop_shape_perm l (shiftDown ht cmp) (shiftDown_perm ht cmp)
      (by omega)

theorem minPop_perm_decomp {α : Type} [Inhabited α]
    (cmp : α → α → Ordering) (l : List α) (h : l ≠ []) :
    ∃ v l2, minPop cmp l = (some v, l2) ∧ List.Perm l (v :: l2) := by
  match hn : l.length with
  | 0 => exact absurd (List.length_eq_zero.mp hn) h
  | 1 =>
    obtain ⟨a, rfl⟩ := List.length_eq_one.mp hn
    exact ⟨a, [], rfl, List.Perm.refl _⟩
  | n + 2 =>
    refine ⟨_, _, minPop_eq_of_len_two cmp l n hn, ?_⟩
    exact pop_shape_perm l (fun m => minHeapify cmp m 0)
      (fun m => minHeapify_perm cmp m 0) (by omega)

/-- C10: every operation preserves the stored multiset of elements exactly:
`push x` (both the shared `Heap::push` and `MinHeap::push`) adds exactly
`x`; `pop` on a non-empty heap removes exactly the returned element; and
the sift-down, sift-up and heapify loops leave the multiset unchanged. -/
theorem c10_ops_preserve_multiset {α : Type} [Inhabited α] (ht : HeapType)
    (cmp : α → α → Ordering) (l : List α) (x : α) (fuel cur : Nat) :
    ((heapPush ht cmp l x : List α) : Multiset α) = x ::ₘ (l : Multiset α)
    ∧ ((minPush cmp l x : List α) : Multiset α) = x ::ₘ (l : Multiset α)
    ∧ (l ≠ [] → ∃ v l2, heapPop ht cmp l = (some v, l2) ∧
        (l : Multiset α) = v ::ₘ (l2 : Multiset α))
    ∧ (l ≠ [] → ∃ v l2, minPop cmp l = (some v, l2) ∧
        (l : Multiset α) = v ::ₘ (l2 : Multiset α))
    ∧ ((shiftDownGo ht cmp fuel l cur : List α) : Multiset α) = (l : Multiset α)
    ∧ ((shiftUpGo ht cmp fuel l cur : List α) : Multiset α) = (l : Multiset α)
    ∧ ((minHeapifyGo cmp fuel l cur : List α) : Multiset α) = (l : Multiset α) := by
  refine ⟨?_, ?_, ?_, ?_, ?_, ?_, ?_⟩
  · rw [Multiset.cons_coe]
    exact Multiset.coe_eq_coe.mpr (heapPush_perm ht cmp l x)
  · rw [Multiset.cons_coe]
    exact Multiset.coe_eq_coe.mpr (minPush_perm cmp l x)
  · intro h
    obtain ⟨v, l2, hpop, hperm⟩ := heapPop_perm_decomp ht cmp l h
    exact ⟨v, l2, hpop, by rw [Multiset.cons_coe]; exact Multiset.coe_eq_coe.mpr hperm⟩
  · intro h
    obtain ⟨v, l2, hpop, hperm⟩ := minPop_perm_decomp cmp l h
    exact ⟨v, l2, hpop, by rw [Multiset.cons_coe]; exact Multiset.coe_eq_coe.mpr hperm⟩
  · exact Multiset.coe_eq_coe.mpr (shiftDownGo_perm ht cmp fuel l cur)
  · exact Multiset.coe_eq_coe.mpr (shiftUpGo_perm ht cmp fuel l cur)
  · exact Multiset.coe_eq_coe.mpr (minHeapifyGo_perm cmp fuel l cur)

/-- Witness for C10 at a concrete input: `push 3` onto the max-heap `[2, 1]`
and `pop` from it. -/
theorem c10_ops_preserve_multiset_witness :
    ((heapPush .maxHeapT compare [2, 1] 3 : List Nat) : Multiset Nat) =
      3 ::ₘ (([2, 1] : List Nat) : Multiset Nat)
    ∧ (∃ v l2, heapPop .maxHeapT compare ([2, 1] : List Nat) = (some v, l2) ∧
        (([2, 1] : List Nat) : Multiset Nat) = v ::ₘ (l2 : Multiset Nat)) := by
  have h := c10_ops_preserve_multiset .maxHeapT compare ([2, 1] : List Nat) 3 2 0
  exact ⟨h.1, h.2.2.1 (by decide)⟩

/-! ### Claim C1, C3, C6: the `MinHeap::push` length-`<= 1` shortcut -/

/-- C1 (code bug): pushing `5` then `3` into a `MinHeap` and popping until
empty yields `[5, 3]`, which is not in ascending order — `MinHeap::push`
appends without sifting whenever the pre-push length is `<= 1`, so the
second push never restores the order. -/
theorem c1_minheap_drain_not_ascending :
    minDrain compare (minPush compare (minPush compare ([] : List Nat) 5) 3) =
      [5, 3]
    ∧ ¬ List.Sorted (· ≤ ·) ([5, 3] : List Nat) := by
  constructor
  · decide
  · decide

/-- C3 (code bug): the two-push sequence `push 5; push 3` on a `MinHeap`
leaves the backing array `[5, 3]`, in which the parent `5` does not dominate
its child `3` — the min-heap invariant is violated in a reachable state. -/
theorem c3_minheap_invariant_violated :
    minPush compare (minPush compare ([] : List Nat) 5) 3 = [5, 3]
    ∧ ¬ isHeapArr .minHeapT compare ([5, 3] : List Nat) := by
  constructor
  · decide
  · decide

/-- C6 (code bug): after `push 5; push 3`, `MinHeap` peeks `5` while the
shared trait algorithm run with the min-heap comparison direction peeks `3`:
the two diverge beyond the comparison direction. -/
theorem c6_minheap_diverges_from_shared_algorithm :
    minPush compare (minPush compare ([] : List Nat) 5) 3 = [5, 3]
    ∧ heapPush .minHeapT compare (heapPush .minHeapT compare ([] : List Nat) 5) 3 =
        [3, 5]
    ∧ minPeek (minPush compare (minPush compare ([] : List Nat) 5) 3) = some 5
    ∧ heapPeek
        (heapPush .minHeapT compare (heapPush .minHeapT compare ([] : List Nat) 5) 3) =
        some 3
    ∧ (minPop compare ([5, 3] : List Nat)).1 = some 5
    ∧ (heapPop .minHeapT compare ([3, 5] : List Nat)).1 = some 3
    ∧ (some 5 : Option Nat) ≠ some 3 := by
  refine ⟨by decide, by decide, by decide, by decide, by decide, by decide, by decide⟩

/-! ### Claim C2: `MaxHeap::from_vec` does not heapify -/

/-- C2 (code bug): `MaxHeap::from_vec([0,1,2,3])` produces the backing array
`[2, 1, 0, 3]`, which violates the max-heap invariant (parent `1` is below
child `3`), and draining it yields `[2, 3, 1, 0]`, not the `[3, 2, 1, 0]`
obtained by pushing the elements one at a time and draining. -/
theorem c2_max_from_vec_diverges :
    maxFromVec compare ([0, 1, 2, 3] : List Nat) = [2, 1, 0, 3]
    ∧ ¬ isHeapArr .maxHeapT compare ([2, 1, 0, 3] : List Nat)
    ∧ heapDrain .maxHeapT compare (maxFromVec compare ([0, 1, 2, 3] : List Nat)) =
        [2, 3, 1, 0]
    ∧ heapDrain .maxHeapT compare
        (heapFromVec .maxHeapT compare ([0, 1, 2, 3] : List Nat)) = [3, 2, 1, 0]
    ∧ ([2, 3, 1, 0] : List Nat) ≠ [3, 2, 1, 0] := by
  refine ⟨by decide, by decide, by decide, by decide, by decide⟩

/-! ### Claim C4: tie handling in the sifts -/

/-- Comparison of pairs by first component only: a legal instantiation of
the `T: Ord + Clone` bound in which `cmp`-equal elements are
distinguishable. -/
def cmpFst (a b : Nat × Nat) : Ordering :=
  compare a.1 b.1

/-- C4 counterexample: pushing three elements of equal priority
`(5,0), (5,1), (5,2)` into a `MinHeap` yields the array
`[(5,2), (5,1), (5,0)]` — the heapify pass inside `MinHeap::push` swaps
elements whose comparison is `Equal`, so ties do force movement, refuting
the claim that equal priority stops the sift immediately. -/
theorem c4_counterexample_min_ties_move :
    minPush cmpFst
        (minPush cmpFst (minPush cmpFst ([] : List (Nat × Nat)) (5, 0)) (5, 1))
        (5, 2) =
      [(5, 2), (5, 1), (5, 0)]
    ∧ cmpFst (5, 2) (5, 0) = .eq
    ∧ minPush cmpFst
        (minPush cmpFst (minPush cmpFst ([] : List (Nat × Nat)) (5, 0)) (5, 1))
        (5, 2) ≠
      [(5, 0), (5, 1), (5, 2)] := by
  refine ⟨by decide, by decide, by decide⟩

/-- C4 (amended): in the max-heap direction ties stop the sift immediately:
if the new element compares `Equal` to its parent, `shift_up` has no effect,
and if the chosen child compares `Equal` to the current node, `shift_down`
has no effect.  (In the min-heap code — `MinHeap::heapify` and the min
branches of the shared sifts — an `Equal` comparison swaps instead, which
still preserves the invariant since tied elements may sit in either
position.) -/
theorem c4_max_heap_ties_never_move {α : Type} [Inhabited α]
    (cmp : α → α → Ordering) (fuel : Nat) (l : List α) (i cur : Nat) :
    (cmp (l.getD (parentIdx i) default) (l.getD i default) = .eq →
      shiftUpGo .maxHeapT cmp fuel l i = l)
    ∧ (cmp (l.getD (chosenChild .maxHeapT cmp l cur) default)
        (l.getD cur default) = .eq →
      shiftDownGo .maxHeapT cmp fuel l cur = l) := by
  constructor
  · intro h
    cases fuel with
    | zero => rfl
    | succ fuel =>
      simp only [shiftUpGo]
      by_cases hi : i = 0
      · rw [if_pos hi]
      · rw [if_neg hi, h]
        simp [siftUpStop]
  · intro h
    cases fuel with
    | zero => rfl
    | succ fuel =>
      simp only [shiftDownGo]
      by_cases hg : l.length ≤ 2 * cur + 1
      · rw [if_pos hg]
      · rw [if_neg hg, h]
        simp [siftStop]

/-- Witness for the amended C4 at a concrete tie: the array `[5, 5]`. -/
theorem c4_max_heap_ties_never_move_witness :
    compare (([5, 5] : List Nat).getD (parentIdx 1) default)
        (([5, 5] : List Nat).getD 1 default) = .eq
    ∧ shiftUpGo .maxHeapT compare 2 ([5, 5] : List Nat) 1 = [5, 5]
    ∧ compare
        (([5, 5] : List Nat).getD (chosenChild .maxHeapT compare [5, 5] 0) default)
        (([5, 5] : List Nat).getD 0 default) = .eq
    ∧ shiftDownGo .maxHeapT compare 2 ([5, 5] : List Nat) 0 = [5, 5] := by
  have h := c4_max_heap_ties_never_move compare 2 ([5, 5] : List Nat) 1 0
  exact ⟨by decide, h.1 (by decide), by decide, h.2 (by decide)⟩

/-! ### Claim C7: empty-heap contract -/

/-- C7: on an empty heap (`new()` returns one, `clear()` produces one),
`peek` and `pop` return `None` for both variants, `len() = 0`,
`is_empty() = true`, and `pop` leaves the (empty) state untouched. -/
theorem c7_empty_heap_contract {α : Type} [Inhabited α] (ht : HeapType)
    (cmp : α → α → Ordering) (l : List α) :
    heapPop ht cmp ([] : List α) = (none, [])
    ∧ heapPeek ([] : List α) = none
    ∧ heapLen ([] : List α) = 0
    ∧ heapIsEmpty ([] : List α) = true
    ∧ minPop cmp ([] : List α) = (none, [])
    ∧ minPeek ([] : List α) = none
    ∧ minLen ([] : List α) = 0
    ∧ (heapNew : List α) = []
    ∧ heapClearF l = []
    ∧ minClearF l = [] :=
  ⟨rfl, rfl, rfl, rfl, rfl, rfl, rfl, rfl, rfl, rfl⟩

/-! ### Observable operation sequences (for C8 and C9) -/

/-- One call of the public API surface (`tree_view` excluded: it only
prints). -/
inductive HeapOp (α : Type) where
  | pushO (x : α) : HeapOp α
  | popO : HeapOp α
  | peekO : HeapOp α
  | lenO : HeapOp α
  | isEmptyO : HeapOp α
  | clearO : HeapOp α

/-- The value returned to the caller by one call. -/
inductive HeapObs (α : Type) where
  | unitO : HeapObs α
  | valO (v : Option α) : HeapObs α
  | numO (n : Nat) : HeapObs α
  | flagO (b : Bool) : HeapObs α

/-- One step of a trait-`Heap` (as instantiated by `MaxHeap`, or by the
trait defaults with the min comparison): new state and returned value. -/
def heapStep {α : Type} [Inhabited α] (ht : HeapType) (cmp : α → α → Ordering)
    (l : List α) : HeapOp α → List α × HeapObs α
  | .pushO x => (heapPush ht cmp l x, .unitO)
  | .popO => ((heapPop ht cmp l).2, .valO (heapPop ht cmp l).1)
  | .peekO => (l, .valO (heapPeek l))
  | .lenO => (l, .numO (heapLen l))
  | .isEmptyO => (l, .flagO (heapIsEmpty l))
  | .clearO => (heapClearF l, .unitO)

/-- Run a sequence of trait-`Heap` calls, collecting the returned values. -/
def heapRun {α : Type} [Inhabited α] (ht : HeapType) (cmp : α → α → Ordering) :
    List α → List (HeapOp α) → List α × List (HeapObs α)
  | l, [] => (l, [])
  | l, op :: ops =>
    ((heapRun ht cmp (heapStep ht cmp l op).1 ops).1,
      (heapStep ht cmp l op).2 :: (heapRun ht cmp (heapStep ht cmp l op).1 ops).2)

/-- One step of a `MinHeap` (its own overriding method bodies;
`is_empty` is the inherited trait default `self.len() == 0`). -/
def minStep {α : Type} [Inhabited α] (cmp : α → α → Ordering)
    (l : List α) : HeapOp α → List α × HeapObs α
  | .pushO x => (minPush cmp l x, .unitO)
  | .popO => ((minPop cmp l).2, .valO (minPop cmp l).1)
  | .peekO => (l, .valO (minPeek l))
  | .lenO => (l, .numO (minLen l))
  | .isEmptyO => (l, .flagO (minLen l == 0))
  | .clearO => (minClearF l, .unitO)

/-- Run a sequence of `MinHeap` calls, collecting the returned values. -/
def minRun {α : Type} [Inhabited α] (cmp : α → α → Ordering) :
    List α → List (HeapOp α) → List α × List (HeapObs α)
  | l, [] => (l, [])
  | l, op :: ops =>
    ((minRun cmp (minStep cmp l op).1 ops).1,
      (minStep cmp l op).2 :: (minRun cmp (minStep cmp l op).1 ops).2)

/-! ### Claim C8: peek is non-destructive -/

/-- C8: `peek` mutates nothing: a single `peek` step leaves the state
unchanged and returns a copy of the root, and inserting any number of
`peek` calls in front of an arbitrary operation sequence (for both
variants) changes neither the final state nor any subsequent returned
value — in particular the eventual pop sequence and `len()` are
untouched. -/
theorem c8_peek_non_destructive {α : Type} [Inhabited α] (ht : HeapType)
    (cmp : α → α → Ordering) (l : List α) (n : Nat) (ops : List (HeapOp α)) :
    heapStep ht cmp l .peekO = (l, .valO (heapPeek l))
    ∧ minStep cmp l .peekO = (l, .valO (minPeek l))
    ∧ heapRun ht cmp l (List.replicate n .peekO ++ ops) =
        ((heapRun ht cmp l ops).1,
          List.replicate n (.valO (heapPeek l)) ++ (heapRun ht cmp l ops).2)
    ∧ minRun cmp l (List.replicate n .peekO ++ ops) =
        ((minRun cmp l ops).1,
          List.replicate n (.valO (minPeek l)) ++ (minRun cmp l ops).2) := by
  refine ⟨rfl, rfl, ?_, ?_⟩
  · induction n with
    | zero => simp
    | succ n ih =>
      rw [List.replicate_succ, List.cons_append]
      show ((heapRun ht cmp l (List.replicate n .peekO ++ ops)).1,
          HeapObs.valO l.head? :: (heapRun ht cmp l (List.replicate n .peekO ++ ops)).2) = _
      rw [ih]
      simp [List.replicate_succ, heapPeek]
  · induction n with
    | zero => simp
    | succ n ih =>
      rw [List.replicate_succ, List.cons_append]
      show ((minRun cmp l (List.replicate n .peekO ++ ops)).1,
          HeapObs.valO l.head? :: (minRun cmp l (List.replicate n .peekO ++ ops)).2) = _
      rw [ih]
      simp [List.replicate_succ, minPeek]

/-! ### Claim C9: clear resets to the freshly-constructed state -/

/-- C9: `clear()` produces exactly the state of `new()` (the empty backing
vector), hence every subsequent operation sequence returns the same states
and values on a cleared heap as on a fresh one, for both variants. -/
theorem c9_clear_equals_new {α : Type} [Inhabited α] (ht : HeapType)
    (cmp : α → α → Ordering) (l : List α) (ops : List (HeapOp α)) :
    heapClearF l = (heapNew : List α)
    ∧ minClearF l = (heapNew : List α)
    ∧ heapRun ht cmp (heapClearF l) ops = heapRun ht cmp heapNew ops
    ∧ minRun cmp (minClearF l) ops = minRun cmp heapNew ops :=
  ⟨rfl, rfl, rfl, rfl⟩

/-! ### Checked semantics for C5: `none` models a panic

Every fallible step of the Rust code — an index expression `v[i]`, a
`Vec::swap`, the `usize` subtraction `self.len() - 1` — is sequenced with
`Option.bind`; `none` models the panic/abort.  Fuel exhaustion also yields
`none`, so a `some` result certifies both panic-freedom and termination
within the given budget. -/

/-- Checked `Vec::swap(i, j)`. -/
def swapIdxC {α : Type} (l : List α) (i j : Nat) : Option (List α) :=
  (l[i]?).bind fun a => (l[j]?).bind fun b => some ((l.set i b).set j a)

/-- Checked child selection of `Heap::shift_down`. -/
def chosenChildC {α : Type} (ht : HeapType) (cmp : α → α → Ordering)
    (l : List α) (cur : Nat) : Option Nat :=
  if 2 * cur + 2 < l.length then
    (l[2 * cur + 2]?).bind fun a => (l[2 * cur + 1]?).bind fun b =>
      some (match cmp a b, ht with
        | .lt, .maxHeapT => 2 * cur + 1
        | .lt, .minHeapT => 2 * cur + 2
        | .eq, .maxHeapT => 2 * cur + 1
        | .eq, .minHeapT => 2 * cur + 2
        | .gt, .maxHeapT => 2 * cur + 2
        | .gt, .minHeapT => 2 * cur + 1)
  else some (2 * cur + 1)

/-- Checked `loop` body of `Heap::shift_down` (also covering
`MinHeap::heapify`, whose branches coincide with the min-heap case). -/
def shiftDownGoC {α : Type} (ht : HeapType) (cmp : α → α → Ordering) :
    Nat → List α → Nat → Option (List α)
  | 0, l, cur => if l.length ≤ 2 * cur + 1 then some l else none
  | fuel + 1, l, cur =>
    if l.length ≤ 2 * cur + 1 then some l
    else
      (chosenChildC ht cmp l cur).bind fun mc =>
      (l[mc]?).bind fun a =>
      (l[cur]?).bind fun b =>
        if siftStop ht (cmp a b) then some l
        else (swapIdxC l cur mc).bind fun l2 =>
          shiftDownGoC ht cmp fuel l2 mc

/-- Checked `Heap::shift_down`. -/
def shiftDownC {α : Type} (ht : HeapType) (cmp : α → α → Ordering)
    (l : List α) : Option (List α) :=
  shiftDownGoC ht cmp l.length l 0

/-- Checked `while` body of `Heap::shift_up`. -/
def shiftUpGoC {α : Type} (ht : HeapType) (cmp : α → α → Ordering) :
    Nat → List α → Nat → Option (List α)
  | 0, l, i => if i = 0 then some l else none
  | fuel + 1, l, i =>
    if i = 0 then some l
    else
      (l[parentIdx i]?).bind fun pv =>
      (l[i]?).bind fun cv =>
        if siftUpStop ht (cmp pv cv) then some l
        else (swapIdxC l (parentIdx i) i).bind fun l2 =>
          shiftUpGoC ht cmp fuel l2 (parentIdx i)

/-- Checked `Heap::shift_up`: `let mut i = self.len() - 1` underflows (and
would panic) on an empty vector. -/
def shiftUpC {α : Type} (ht : HeapType) (cmp : α → α → Ordering)
    (l : List α) : Option (List α) :=
  if l.length = 0 then none
  else shiftUpGoC ht cmp l.length l (l.length - 1)

/-- Checked `Heap::push`. -/
def heapPushC {α : Type} (ht : HeapType) (cmp : α → α → Ordering)
    (l : List α) (x : α) : Option (List α) :=
  if l.length < 1 then some (l ++ [x])
  else shiftUpC ht cmp (l ++ [x])

/-- Checked `Heap::pop` (`Vec::pop` and the cloning reads cannot fail; the
root read, the swap and the sift can, in principle). -/
def heapPopC {α : Type} (ht : HeapType) (cmp : α → α → Ordering)
    (l : List α) : Option (Option α × List α) :=
  match l.length with
  | 0 => some (none, l)
  | 1 => some (l.getLast?, l.dropLast)
  | _ + 2 =>
    (l[0]?).bind fun root =>
    (swapIdxC l 0 (l.length - 1)).bind fun l2 =>
    (shiftDownC ht cmp l2.dropLast).bind fun l3 =>
      some (some root, l3)

/-- Checked `MinHeap::heapify(root)`: its loop body is branch-for-branch the
min-heap case of the shared checked sift-down (cf. `minHeapifyGo_eq`). -/
def minHeapifyC {α : Type} (cmp : α → α → Ordering)
    (l : List α) (root : Nat) : Option (List α) :=
  shiftDownGoC .minHeapT cmp l.length l root

/-- Checked run of `heapify(i)` over a list of indices. -/
def minHeapifyRunC {α : Type} (cmp : α → α → Ordering) :
    List Nat → List α → Option (List α)
  | [], l => some l
  | i :: is, l => (minHeapifyC cmp l i).bind fun l2 => minHeapifyRunC cmp is l2

/-- Checked `MinHeap::push`. -/
def minPushC {α : Type} (cmp : α → α → Ordering)
    (l : List α) (x : α) : Option (List α) :=
  if l.length ≤ 1 then some (l ++ [x])
  else minHeapifyRunC cmp (List.range l.length).reverse (l ++ [x])

/-- Checked `MinHeap::pop`. -/
def minPopC {α : Type} (cmp : α → α → Ordering)
    (l : List α) : Option (Option α × List α) :=
  match l.length with
  | 0 => some (none, l)
  | 1 => some (l.getLast?, l.dropLast)
  | _ + 2 =>
    (l[0]?).bind fun root =>
    (swapIdxC l 0 (l.length - 1)).bind fun l2 =>
    (minHeapifyC cmp l2.dropLast 0).bind fun l3 =>
      some (some root, l3)

/-- Checked `MinHeap::from_vec`. -/
def minFromVecC {α : Type} (cmp : α → α → Ordering)
    (vec : List α) : Option (List α) :=
  minHeapifyRunC cmp (List.range vec.length).reverse vec

/-- Checked run of the pushes of the trait-default `Heap::from_vec`. -/
def heapFromVecRunC {α : Type} (ht : HeapType) (cmp : α → α → Ordering) :
    List α → List α → Option (List α)
  | l, [] => some l
  | l, x :: xs => (heapPushC ht cmp l x).bind fun l2 => heapFromVecRunC ht cmp l2 xs

/-- Checked trait-default `Heap::from_vec`. -/
def heapFromVecC {α : Type} (ht : HeapType) (cmp : α → α → Ordering)
    (vec : List α) : Option (List α) :=
  heapFromVecRunC ht cmp heapNew vec

/-- Checked run of the `shift_down()` loop of `MaxHeap::from_vec` (the loop
variable is unused, so only the iteration count matters). -/
def maxFromVecRunC {α : Type} (cmp : α → α → Ordering) :
    List Nat → List α → Option (List α)
  | [], l => some l
  | _ :: is, l => (shiftDownC .maxHeapT cmp l).bind fun l2 => maxFromVecRunC cmp is l2

/-- Checked `MaxHeap::from_vec`. -/
def maxFromVecC {α : Type} (cmp : α → α → Ordering)
    (vec : List α) : Option (List α) :=
  maxFromVecRunC cmp (List.range vec.length).reverse vec

/-- Checked `peek` / `len` / `is_empty` / `clear` / `new`: these perform no
indexing and cannot fail. -/
def heapPeekC {α : Type} (l : List α) : Option (Option α) :=
  some l.head?

def heapLenC {α : Type} (l : List α) : Option Nat :=
  some l.length

def heapIsEmptyC {α : Type} (l : List α) : Option Bool :=
  some (heapIsEmpty l)

def heapClearC {α : Type} (_ : List α) : Option (List α) :=
  some []

/-! ### The checked semantics never fails -/

theorem getD_of_lt {α : Type} [Inhabited α] (l : List α) (n : Nat)
    (h : n < l.length) : l.getD n default = l[n] := by
  simp [List.getD_eq_getElem?_getD, List.getElem?_eq_getElem h]

theorem parentIdx_lt {i : Nat} (h : i ≠ 0) : parentIdx i < i := by
  unfold parentIdx
  split <;> omega

theorem swapIdxC_eq {α : Type} (l : List α) (i j : Nat)
    (hi : i < l.length) (hj : j < l.length) :
    swapIdxC l i j = some (swapIdx l i j) := by
  unfold swapIdxC swapIdx
  rw [List.getElem?_eq_getElem hi, List.getElem?_eq_getElem hj]
  rfl

theorem chosenChildC_eq {α : Type} [Inhabited α] (ht : HeapType)
    (cmp : α → α → Ordering) (l : List α) (cur : Nat)
    (h : 2 * cur + 1 < l.length) :
    chosenChildC ht cmp l cur = some (chosenChild ht cmp l cur) := by
  unfold chosenChildC chosenChild
  by_cases h2 : 2 * cur + 2 < l.length
  · rw [if_pos h2, if_pos h2, List.getElem?_eq_getElem h2,
      List.getElem?_eq_getElem h]
    simp only [Option.some_bind]
    rw [getD_of_lt l _ h2, getD_of_lt l _ h]
    cases cmp (l[2 * cur + 2]) (l[2 * cur + 1]) <;> cases ht <;> rfl
  · rw [if_neg h2, if_neg h2]

theorem shiftDownGoC_eq {α : Type} [Inhabited α] (ht : HeapType)
    (cmp : α → α → Ordering) :
    ∀ (fuel : Nat) (l : List α) (cur : Nat), l.length ≤ cur + fuel →
      shiftDownGoC ht cmp fuel l cur = some (shiftDownGo ht cmp fuel l cur) := by
  intro fuel
  induction fuel with
  | zero =>
    intro l cur h
    simp only [shiftDownGoC, shiftDownGo]
    rw [if_pos (by omega)]
  | succ fuel ih =>
    intro l cur h
    simp only [shiftDownGoC, shiftDownGo]
    by_cases hg : l.length ≤ 2 * cur + 1
    · rw [if_pos hg, if_pos hg]
    · rw [if_neg hg, if_neg hg]
      have hlc : 2 * cur + 1 < l.length := by omega
      have hcur : cur < l.length := by omega
      have hmc : chosenChild ht cmp l cur < l.length :=
        chosenChild_lt_len ht cmp l cur hlc
      rw [chosenChildC_eq ht cmp l cur hlc]
      simp only [Option.some_bind]
      rw [List.getElem?_eq_getElem hmc, List.getElem?_eq_getElem hcur]
      simp only [Option.some_bind]
      rw [getD_of_lt l _ hmc, getD_of_lt l _ hcur]
      by_cases hs : siftStop ht (cmp (l[chosenChild ht cmp l cur]) (l[cur])) = true
      · rw [if_pos hs, if_pos hs]
      · rw [if_neg hs, if_neg hs]
        rw [swapIdxC_eq l cur _ hcur hmc]
        simp only [Option.some_bind]
        have hgt := chosenChild_gt ht cmp l cur
        have hlen := swapIdx_length l cur (chosenChild ht cmp l cur)
        exact ih _ _ (by omega)

theorem shiftUpGoC_eq {α : Type} [Inhabited α] (ht : HeapType)
    (cmp : α → α → Ordering) :
    ∀ (fuel : Nat) (l : List α) (i : Nat), i < fuel → i < l.length →
      shiftUpGoC ht cmp fuel l i = some (shiftUpGo ht cmp fuel l i) := by
  intro fuel
  induction fuel with
  | zero => intro l i h1 _; omega
  | succ fuel ih =>
    intro l i h1 h2
    simp only [shiftUpGoC, shiftUpGo]
    by_cases hi : i = 0
    · rw [if_pos hi, if_pos hi]
    · rw [if_neg hi, if_neg hi]
      have hp : parentIdx i < i := parentIdx_lt hi
      have hpl : parentIdx i < l.length := by omega
      rw [List.getElem?_eq_getElem hpl, List.getElem?_eq_getElem h2]
      simp only [Option.some_bind]
      rw [getD_of_lt l _ hpl, getD_of_lt l _ h2]
      by_cases hs : siftUpStop ht (cmp (l[parentIdx i]) (l[i])) = true
      · rw [if_pos hs, if_pos hs]
      · rw [if_neg hs, if_neg hs]
        rw [swapIdxC_eq l _ i hpl h2]
        simp only [Option.some_bind]
        have hlen := swapIdx_length l (parentIdx i) i
        exact ih _ _ (by omega) (by omega)

theorem shiftUpC_eq {α : Type} [Inhabited α] (ht : HeapType)
    (cmp : α → α → Ordering) (l : List α) (h : l ≠ []) :
    shiftUpC ht cmp l = some (shiftUp ht cmp l) := by
  have hl : 0 < l.length := List.length_pos.mpr h
  unfold shiftUpC shiftUp
  rw [if_neg (by omega)]
  exact shiftUpGoC_eq ht cmp l.length l (l.length - 1) (by omega) (by omega)

theorem shiftDownC_eq {α : Type} [Inhabited α] (ht : HeapType)
    (cmp : α → α → Ordering) (l : List α) :
    shiftDownC ht cmp l = some (shiftDown ht cmp l) :=
  shiftDownGoC_eq ht cmp l.length l 0 (by omega)

theorem heapPushC_eq {α : Type} [Inhabited α] (ht : HeapType)
    (cmp : α → α → Ordering) (l : List α) (x : α) :
    heapPushC ht cmp l x = some (heapPush ht cmp l x) := by
  unfold heapPushC heapPush
  by_cases h : l.length < 1
  · rw [if_pos h, if_pos h]
  · rw [if_neg h, if_neg h]
    exact shiftUpC_eq ht cmp (l ++ [x]) (by simp)

theorem heapPopC_eq {α : Type} [Inhabited α] (ht : HeapType)
    (cmp : α → α → Ordering) (l : List α) :
    heapPopC ht cmp l = some (heapPop ht cmp l) := by
  match hn : l.length with
  | 0 =>
    have e1 : heapPopC ht cmp l = some (none, l) := by unfold heapPopC; rw [hn]
    have e2 : heapPop ht cmp l = (none, l) := by unfold heapPop; rw [hn]
    rw [e1, e2]
  | 1 =>
    have e1 : heapPopC ht cmp l = some (l.getLast?, l.dropLast) := by
      unfold heapPopC; rw [hn]
    have e2 : heapPop ht cmp l = (l.getLast?, l.dropLast) := by
      unfold heapPop; rw [hn]
    rw [e1, e2]
  | n + 2 =>
    have h0 : 0 < l.length := by omega
    have hn1 : l.length - 1 < l.length := by omega
    have e1 : heapPopC ht cmp l =
        (l[0]?).bind fun root =>
        (swapIdxC l 0 (l.length - 1)).bind fun l2 =>
        (shiftDownC ht cmp l2.dropLast).bind fun l3 =>
          some (some root, l3) := by
      unfold heapPopC; rw [hn]
    rw [e1, heapPop_eq_of_len_two ht cmp l n hn,
      List.getElem?_eq_getElem h0]
    simp only [Option.some_bind]
    rw [swapIdxC_eq l 0 (l.length - 1) h0 hn1]
    simp only [Option.some_bind]
    rw [shiftDownC_eq]
    simp only [Option.some_bind]
    rw [getD_of_lt l 0 h0]

/-! ### `MinHeap::heapify` coincides with the min case of `shift_down` -/

theorem minChosenChild_eq {α : Type} [Inhabited α] (cmp : α → α → Ordering)
    (l : List α) (cur : Nat) :
    minChosenChild cmp l cur = chosenChild .minHeapT cmp l cur := by
  unfold minChosenChild chosenChild
  by_cases h : 2 * cur + 2 < l.length
  · rw [if_pos h]
  · rw [if_neg h]

theorem minHeapifyGo_eq {α : Type} [Inhabited α] (cmp : α → α → Ordering) :
    ∀ (fuel : Nat) (l : List α) (cur : Nat),
      minHeapifyGo cmp fuel l cur = shiftDownGo .minHeapT cmp fuel l cur := by
  intro fuel
  induction fuel with
  | zero => intro l cur; rfl
  | succ fuel ih =>
    intro l cur
    simp only [minHeapifyGo, shiftDownGo]
    by_cases hg : l.length ≤ 2 * cur + 1
    · rw [if_pos hg, if_pos hg]
    · rw [if_neg hg, if_neg hg, minChosenChild_eq]
      cases hc : cmp (l.getD (chosenChild .minHeapT cmp l cur) default)
          (l.getD cur default) <;>
        simp [siftStop, ih]

theorem minHeapifyC_eq {α : Type} [Inhabited α] (cmp : α → α → Ordering)
    (l : List α) (root : Nat) :
    minHeapifyC cmp l root = some (minHeapify cmp l root) := by
  unfold minHeapifyC minHeapify
  rw [minHeapifyGo_eq]
  exact shiftDownGoC_eq .minHeapT cmp l.length l root (by omega)

theorem minHeapifyRunC_eq {α : Type} [Inhabited α] (cmp : α → α → Ordering) :
    ∀ (idxs : List Nat) (l : List α),
      minHeapifyRunC cmp idxs l =
        some (idxs.foldl (fun acc i => minHeapify cmp acc i) l) := by
  intro idxs
  induction idxs with
  | nil => intro l; rfl
  | cons i is ih =>
    intro l
    simp only [minHeapifyRunC, List.foldl_cons]
    rw [minHeapifyC_eq]
    simp only [Option.some_bind]
    exact ih _

theorem minPushC_eq {α : Type} [Inhabited α] (cmp : α → α → Ordering)
    (l : List α) (x : α) :
    minPushC cmp l x = some (minPush cmp l x) := by
  unfold minPushC minPush
  by_cases h : l.length ≤ 1
  · rw [if_pos h, if_pos h]
  · rw [if_neg h, if_neg h]
    exact minHeapifyRunC_eq cmp _ _

theorem minPopC_eq {α : Type} [Inhabited α] (cmp : α → α → Ordering)
    (l : List α) :
    minPopC cmp l = some (minPop cmp l) := by
  match hn : l.length with
  | 0 =>
    have e1 : minPopC cmp l = some (none, l) := by unfold minPopC; rw [hn]
    have e2 : minPop cmp l = (none, l) := by unfold minPop; rw [hn]
    rw [e1, e2]
  | 1 =>
    have e1 : minPopC cmp l = some (l.getLast?, l.dropLast) := by
      unfold minPopC; rw [hn]
    have e2 : minPop cmp l = (l.getLast?, l.dropLast) := by
      unfold minPop; rw [hn]
    rw [e1, e2]
  | n + 2 =>
    have h0 : 0 < l.length := by omega
    have hn1 : l.length - 1 < l.length := by omega
    have e1 : minPopC cmp l =
        (l[0]?).bind fun root =>
        (swapIdxC l 0 (l.length - 1)).bind fun l2 =>
        (minHeapifyC cmp l2.dropLast 0).bind fun l3 =>
          some (some root, l3) := by
      unfold minPopC; rw [hn]
    rw [e1, minPop_eq_of_len_two cmp l n hn, List.getElem?_eq_getElem h0]
    simp only [Option.some_bind]
    rw [swapIdxC_eq l 0 (l.length - 1) h0 hn1]
    simp only [Option.some_bind]
    rw [minHeapifyC_eq]
    simp only [Option.some_bind]
    rw [getD_of_lt l 0 h0]

theorem minFromVecC_eq {α : Type} [Inhabited α] (cmp : α → α → Ordering)
    (vec : List α) :
    minFromVecC cmp vec = some (minFromVec cmp vec) :=
  minHeapifyRunC_eq cmp _ _

theorem heapFromVecRunC_eq {α : Type} [Inhabited α] (ht : HeapType)
    (cmp : α → α → Ordering) :
    ∀ (xs : List α) (l : List α),
      heapFromVecRunC ht cmp l xs =
        some (xs.foldl (fun acc x => heapPush ht cmp acc x) l) := by
  intro xs
  induction xs with
  | nil => intro l; rfl
  | cons x xs ih =>
    intro l
    simp only [heapFromVecRunC, List.foldl_cons]
    rw [heapPushC_eq]
    simp only [Option.some_bind]
    exact ih _

theorem heapFromVecC_eq {α : Type} [Inhabited α] (ht : HeapType)
    (cmp : α → α → Ordering) (vec : List α) :
    heapFromVecC ht cmp vec = some (heapFromVec ht cmp vec) :=
  heapFromVecRunC_eq ht cmp vec heapNew

theorem maxFromVecRunC_eq {α : Type} [Inhabited α] (cmp : α → α → Ordering) :
    ∀ (idxs : List Nat) (l : List α),
      maxFromVecRunC cmp idxs l =
        some (idxs.foldl (fun acc _ => shiftDown .maxHeapT cmp acc) l) := by
  intro idxs
  induction idxs with
  | nil => intro l; rfl
  | cons i is ih =>
    intro l
    simp only [maxFromVecRunC, List.foldl_cons]
    rw [shiftDownC_eq]
    simp only [Option.some_bind]
    exact ih _

theorem maxFromVecC_eq {α : Type} [Inhabited α] (cmp : α → α → Ordering)
    (vec : List α) :
    maxFromVecC cmp vec = some (maxFromVec cmp vec) := by
  unfold maxFromVecC maxFromVec
  rw [List.foldl_reverse]
  rw [← List.foldl_reverse]
  exact maxFromVecRunC_eq cmp _ vec

/-! ### Every `tree_view` read is in bounds -/

theorem treeViewIndices_bounded (len : Nat) :
    ∀ j ∈ treeViewIndices len, j < len := by
  unfold treeViewIndices
  have hgen : ∀ (is : List Nat), (∀ i ∈ is, i < levelsFromLen len) →
      ∀ j ∈ is.foldr
        (fun i acc =>
          (List.range (min (2 ^ (i + 1) - 2) (len - 1) + 1 - (2 ^ i - 1))).map
            (fun k => (2 ^ i - 1) + k) ++ acc) [],
        j < len := by
    intro is
    induction is with
    | nil => intro _ j hj; simp at hj
    | cons i is ih =>
      intro hmem j hj
      simp only [List.foldr_cons, List.mem_append, List.mem_map,
        List.mem_range] at hj
      rcases hj with ⟨k, hk, rfl⟩ | hj
      · have hi : i < levelsFromLen len := hmem i (by simp)
        have hlen : len ≠ 0 := by
          intro h0
          rw [h0] at hi
          simp [levelsFromLen] at hi
        have hmin : min (2 ^ (i + 1) - 2) (len - 1) ≤ len - 1 :=
          Nat.min_le_right _ _
        omega
      · exact ih (fun a ha => hmem a (by simp [ha])) j hj
  intro j hj
  exact hgen (List.range (levelsFromLen len))
    (fun i hi => List.mem_range.mp hi) j hj

/-- C5: no public operation panics or aborts on any heap state: each checked
operation — in which every index expression, `Vec::swap` and the
`self.len() - 1` subtraction of `shift_up` can fail, and running out of
loop fuel also fails — returns `some` of the result of the total model, for
every state and argument; and every index read by `tree_view` is within the
array bounds. -/
theorem c5_no_panic {α : Type} [Inhabited α] (ht : HeapType)
    (cmp : α → α → Ordering) (l vec : List α) (x : α) :
    heapPushC ht cmp l x = some (heapPush ht cmp l x)
    ∧ heapPopC ht cmp l = some (heapPop ht cmp l)
    ∧ minPushC cmp l x = some (minPush cmp l x)
    ∧ minPopC cmp l = some (minPop cmp l)
    ∧ heapFromVecC ht cmp vec = some (heapFromVec ht cmp vec)
    ∧ maxFromVecC cmp vec = some (maxFromVec cmp vec)
    ∧ minFromVecC cmp vec = some (minFromVec cmp vec)
    ∧ heapPeekC l = some (heapPeek l)
    ∧ heapLenC l = some (heapLen l)
    ∧ heapIsEmptyC l = some (heapIsEmpty l)
    ∧ heapClearC l = some (heapClearF l)
    ∧ (treeViewIndices (heapLen l)).all (fun j => decide (j < heapLen l)) = true :=
  ⟨heapPushC_eq ht cmp l x, heapPopC_eq ht cmp l, minPushC_eq cmp l x,
    minPopC_eq cmp l, heapFromVecC_eq ht cmp vec, maxFromVecC_eq cmp vec,
    minFromVecC_eq cmp vec, rfl, rfl, rfl, rfl, by
      simp only [List.all_eq_true, decide_eq_true_eq]
      exact fun j hj => treeViewIndices_bounded (heapLen l) j hj⟩

end HeapModel
